import Mathlib

/-!
# Verification of `src/prime_factors.py`

Shallow embedding of the two reference functions `find_divisors` and
`find_prime_factors` of `src/prime_factors.py`, together with proofs of the
specified properties.  Python's arbitrary-precision nonnegative integers are
modelled by `Nat`; on nonnegative arguments Python's `%`, `//` and list
operations agree with `Nat.mod`, `Nat.div` and `List` operations.  The bound
`int(math.sqrt(n))` is modelled by the exact integer square root `Nat.sqrt`
(both the spec and the claims read this bound as `floor(sqrt(n))`).
`math.sqrt` raises `ValueError: math domain error` on negative arguments,
which the `Int`-level wrappers capture with `Except`.
-/

/-- The list built by the loop of `find_divisors` (src/prime_factors.py,
lines 32-39): for each `i` in `range(1, int(math.sqrt(n)) + 1)` — that is,
`i = 1, ..., ⌊√n⌋` — when `n % i == 0` the loop appends `i` and, unless
`i == n // i`, also `n // i`. -/
def divisorsList (n : Nat) : List Nat :=
  (List.range' 1 (Nat.sqrt n)).flatMap fun i =>
    if n % i = 0 then (if i ≠ n / i then [i, n / i] else [i]) else []

/-- Shallow embedding of `find_divisors` (src/prime_factors.py, lines 19-42):
accumulate the divisor pairs found below the square root, then sort the
accumulated list ascending (`divisors.sort()`). -/
def find_divisors (n : Nat) : List Nat :=
  List.insertionSort (· ≤ ·) (divisorsList n)

/-- Shallow embedding of the inner `while n % i == 0` loop of
`find_prime_factors` (src/prime_factors.py, lines 90-92), acting on the pair
(working value, accumulated set): each iteration adds `i` to the set and
replaces the working value `m` by `m / i`.  The extra guard conjuncts
`2 ≤ i ∧ 0 < m` hold at every call site reached from `find_prime_factors`
(the candidate `i` ranges over `[2, ⌊√n⌋]`, and the working value stays
positive for `n ≥ 1`, while for `n = 0` the loop body never executes); they
only make the recursion well-founded at states the Python loop never
reaches. -/
def innerLoop (i m : Nat) (s : Finset Nat) : Nat × Finset Nat :=
  if h : 2 ≤ i ∧ 0 < m ∧ m % i = 0 then innerLoop i (m / i) (insert i s)
  else (m, s)
termination_by m
decreasing_by exact Nat.div_lt_self h.2.1 (by omega)

/-- The working value left after the inner while loop fully divides the
candidate `i` out of `m`: the first component of `innerLoop`. -/
def divideOut (i m : Nat) : Nat :=
  if h : 2 ≤ i ∧ 0 < m ∧ m % i = 0 then divideOut i (m / i)
  else m
termination_by m
decreasing_by exact Nat.div_lt_self h.2.1 (by omega)

/-- Fuel-bounded version of `innerLoop`: identical body, but the recursion
depth is bounded by an explicit fuel argument.  `innerLoopFuel m i m s`
coincides with `innerLoop i m s` because each division by `i ≥ 2` strictly
decreases the working value, so the loop runs at most `m` iterations. -/
def innerLoopFuel : Nat → Nat → Nat → Finset Nat → Nat × Finset Nat
  | 0, _, m, s => (m, s)
  | fuel + 1, i, m, s =>
    if 2 ≤ i ∧ 0 < m ∧ m % i = 0 then innerLoopFuel fuel i (m / i) (insert i s)
    else (m, s)

/-- Shallow embedding of `find_prime_factors` (src/prime_factors.py, lines
71-98).  The outer loop `for i in range(2, int(math.sqrt(n)) + 1)` visits
`i = 2, ..., ⌊√n⌋` — the bound is computed once, from the original `n` —
threading the working value (Python rebinds the parameter `n`) and the
result set through the inner while loop; afterwards, if the remaining
working value exceeds 1, it is added to the set. -/
def find_prime_factors (n : Nat) : Finset Nat :=
  let p := (List.range' 2 (Nat.sqrt n - 1)).foldl
    (fun q i => innerLoop i q.1 q.2) (n, (∅ : Finset Nat))
  if p.1 > 1 then insert p.1 p.2 else p.2

/-- `find_prime_factors` with every inner while loop run on explicit fuel
equal to its entry working value: a manifestly structurally recursive, hence
total, computation.  Proving it equal to `find_prime_factors` expresses that
the reference function terminates, with each inner loop's iteration count
bounded by its entry working value. -/
def find_prime_factors_fuel (n : Nat) : Finset Nat :=
  let p := (List.range' 2 (Nat.sqrt n - 1)).foldl
    (fun q i => innerLoopFuel q.1 i q.1 q.2) (n, (∅ : Finset Nat))
  if p.1 > 1 then insert p.1 p.2 else p.2

/-- The variant outer loop described in spec §9: candidates `i = 2, 3, ...`
are scanned while `i ≤ ⌊√m⌋` for the *current* working value `m`, i.e. the
bound is recomputed from the shrinking working value on each outer
iteration, instead of once from the original input.  The fuel argument only
bounds the recursion: `⌊√n⌋` iterations always suffice, because the
candidate grows by one per iteration while the bound never grows. -/
def recomputeLoop : Nat → Nat → Nat → Finset Nat → Nat × Finset Nat
  | 0, _, m, s => (m, s)
  | fuel + 1, i, m, s =>
    if i ≤ Nat.sqrt m then
      let p := innerLoop i m s
      recomputeLoop fuel (i + 1) p.1 p.2
    else (m, s)

/-- The recomputed-bound variant of `find_prime_factors` (spec §9): same
inner loop and same final `m > 1` step, but the outer scan stops as soon as
the candidate exceeds the square root of the current working value. -/
def find_prime_factors_recompute (n : Nat) : Finset Nat :=
  let p := recomputeLoop (Nat.sqrt n) 2 n ∅
  if p.1 > 1 then insert p.1 p.2 else p.2

/-- Python-level wrapper for `find_divisors` over `Int` inputs:
`math.sqrt` raises `ValueError: math domain error` on a negative argument,
so a negative input escapes as an error before the loop body can run; for a
nonnegative argument every value occurring in the computation is a
nonnegative integer and Python's `%`, `//` and `sort` agree with the `Nat`
operations, so the body coincides with the `Nat` embedding. -/
def find_divisors_py (n : Int) : Except String (List Nat) :=
  if n < 0 then Except.error "math domain error"
  else Except.ok (find_divisors n.toNat)

/-- Python-level wrapper for `find_prime_factors` over `Int` inputs, with
the same treatment of `math.sqrt`'s domain error as `find_divisors_py`. -/
def find_prime_factors_py (n : Int) : Except String (Finset Nat) :=
  if n < 0 then Except.error "math domain error"
  else Except.ok (find_prime_factors n.toNat)

/-- Invariant of the outer scan of `find_prime_factors`, holding just before
candidate `i` is processed: the working value `m` is a positive divisor of
`n` retaining no prime factor below `i`, the cofactor of `m` in `n` has all
its prime factors below `i`, and the accumulated set `s` consists exactly of
the prime factors of `n` below `i`. -/
def FactorInv (n i m : Nat) (s : Finset Nat) : Prop :=
  0 < m ∧ m ∣ n ∧
  (∀ p, p.Prime → p ∣ m → i ≤ p) ∧
  (∃ c, n = m * c ∧ ∀ p, p.Prime → p ∣ c → p < i) ∧
  (∀ x ∈ s, x ∈ n.primeFactors ∧ x < i) ∧
  (∀ p ∈ n.primeFactors, p < i → p ∈ s)

/-! ## Square-root evaluation helper -/

theorem sqrt_eval {n a : Nat} (h1 : a * a ≤ n) (h2 : n < (a + 1) * (a + 1)) :
    Nat.sqrt n = a :=
  (Nat.eq_sqrt.mpr ⟨h1, h2⟩).symm

/-! ## Inner-loop lemmas -/

theorem divideOut_pow_mul (i : Nat) : ∀ m : Nat, ∃ k, m = i ^ k * divideOut i m := by
  intro m
  induction m using Nat.strong_induction_on with
  | _ m ih =>
    by_cases h : 2 ≤ i ∧ 0 < m ∧ m % i = 0
    · obtain ⟨k, hk⟩ := ih (m / i) (Nat.div_lt_self h.2.1 (by omega))
      refine ⟨k + 1, ?_⟩
      rw [divideOut, dif_pos h]
      calc m = i * (m / i) := (Nat.mul_div_cancel' (Nat.dvd_of_mod_eq_zero h.2.2)).symm
        _ = i * (i ^ k * divideOut i (m / i)) := by rw [← hk]
        _ = i ^ (k + 1) * divideOut i (m / i) := by ring
    · exact ⟨0, by rw [divideOut, dif_neg h]; ring⟩

theorem divideOut_dvd (i m : Nat) : divideOut i m ∣ m := by
  obtain ⟨k, hk⟩ := divideOut_pow_mul i m
  exact Dvd.intro_left (i ^ k) hk.symm

theorem divideOut_pos (i : Nat) {m : Nat} (hm : 0 < m) : 0 < divideOut i m :=
  Nat.pos_of_dvd_of_pos (divideOut_dvd i m) hm

theorem divideOut_not_dvd (i : Nat) (h2 : 2 ≤ i) : ∀ m : Nat, 0 < m → ¬i ∣ divideOut i m := by
  intro m
  induction m using Nat.strong_induction_on with
  | _ m ih =>
    intro hm
    by_cases h : 2 ≤ i ∧ 0 < m ∧ m % i = 0
    · rw [divideOut, dif_pos h]
      exact ih (m / i) (Nat.div_lt_self h.2.1 (by omega))
        (Nat.div_pos (Nat.le_of_dvd hm (Nat.dvd_of_mod_eq_zero h.2.2)) (by omega))
    · rw [divideOut, dif_neg h]
      intro hdvd
      exact h ⟨h2, hm, Nat.mod_eq_zero_of_dvd hdvd⟩

theorem innerLoop_eq (i : Nat) : ∀ m : Nat, ∀ s : Finset Nat, innerLoop i m s =
    (divideOut i m, if 2 ≤ i ∧ 0 < m ∧ m % i = 0 then insert i s else s) := by
  intro m
  induction m using Nat.strong_induction_on with
  | _ m ih =>
    intro s
    by_cases h : 2 ≤ i ∧ 0 < m ∧ m % i = 0
    · rw [innerLoop, dif_pos h, divideOut, dif_pos h, if_pos h,
        ih (m / i) (Nat.div_lt_self h.2.1 (by omega))]
      refine Prod.ext rfl ?_
      by_cases h' : 2 ≤ i ∧ 0 < m / i ∧ (m / i) % i = 0
      · rw [if_pos h']
        exact Finset.insert_idem i s
      · rw [if_neg h']
    · rw [innerLoop, dif_neg h, divideOut, dif_neg h, if_neg h]

theorem innerLoopFuel_eq (i : Nat) : ∀ fuel m : Nat, ∀ s : Finset Nat, m ≤ fuel →
    innerLoopFuel fuel i m s = innerLoop i m s := by
  intro fuel
  induction fuel with
  | zero =>
    intro m s hm
    have hm0 : m = 0 := by omega
    subst hm0
    rw [innerLoopFuel, innerLoop, dif_neg (by simp)]
  | succ fuel ih =>
    intro m s hm
    by_cases h : 2 ≤ i ∧ 0 < m ∧ m % i = 0
    · rw [innerLoopFuel, if_pos h, innerLoop, dif_pos h,
        ih (m / i) (insert i s) (by have := Nat.div_lt_self h.2.1 (by omega : 1 < i); omega)]
    · rw [innerLoopFuel, if_neg h, innerLoop, dif_neg h]

/-! ## Divisor-list lemmas -/

theorem mul_eq_sqrt_of_le_sqrt {n i j : Nat} (hn : 0 < n) (h : i * j = n)
    (hi : i ≤ Nat.sqrt n) (hj : j ≤ Nat.sqrt n) :
    i = Nat.sqrt n ∧ j = Nat.sqrt n := by
  have hs : Nat.sqrt n * Nat.sqrt n ≤ n := Nat.sqrt_le n
  have hs0 : 0 < Nat.sqrt n := Nat.sqrt_pos.mpr hn
  constructor
  · by_contra hne
    have hlt : i < Nat.sqrt n := lt_of_le_of_ne hi hne
    have : i * j < Nat.sqrt n * Nat.sqrt n :=
      Nat.mul_lt_mul_of_lt_of_le hlt hj hs0
    omega
  · by_contra hne
    have hlt : j < Nat.sqrt n := lt_of_le_of_ne hj hne
    have : j * i < Nat.sqrt n * Nat.sqrt n :=
      Nat.mul_lt_mul_of_lt_of_le hlt hi hs0
    rw [Nat.mul_comm j i] at this
    omega

theorem divisorsList_sound {n d : Nat} (hn : 1 ≤ n) (hd : d ∈ divisorsList n) :
    0 < d ∧ n % d = 0 := by
  rw [divisorsList, List.mem_flatMap] at hd
  obtain ⟨i, hi, hdi⟩ := hd
  rw [List.mem_range'_1] at hi
  by_cases h : n % i = 0
  · rw [if_pos h] at hdi
    have hidvd : i ∣ n := Nat.dvd_of_mod_eq_zero h
    have hni : n / i ∣ n := Nat.div_dvd_of_dvd hidvd
    have hni0 : 0 < n / i := Nat.div_pos (Nat.le_of_dvd (by omega) hidvd) (by omega)
    by_cases he : i ≠ n / i
    · rw [if_pos he] at hdi
      rcases List.mem_cons.mp hdi with hdi | hdi
      · subst hdi
        exact ⟨by omega, h⟩
      · rw [List.mem_singleton] at hdi
        subst hdi
        exact ⟨hni0, Nat.mod_eq_zero_of_dvd hni⟩
    · rw [if_neg he] at hdi
      rw [List.mem_singleton] at hdi
      subst hdi
      exact ⟨by omega, h⟩
  · rw [if_neg h] at hdi
    simp at hdi

theorem divisorsList_complete {n d : Nat} (hn : 1 ≤ n) (hd0 : 0 < d)
    (hdvd : n % d = 0) : d ∈ divisorsList n := by
  have hdn : d ∣ n := Nat.dvd_of_mod_eq_zero hdvd
  have hdle : d ≤ n := Nat.le_of_dvd (by omega) hdn
  rw [divisorsList, List.mem_flatMap]
  by_cases hle : d ≤ Nat.sqrt n
  · refine ⟨d, ?_, ?_⟩
    · rw [List.mem_range'_1]; omega
    · rw [if_pos hdvd]
      by_cases he : d ≠ n / d
      · rw [if_pos he]; exact List.mem_cons_self _ _
      · rw [if_neg he]; exact List.mem_singleton_self _
  · push_neg at hle
    have hidvd : n / d ∣ n := Nat.div_dvd_of_dvd hdn
    have hi0 : 0 < n / d := Nat.div_pos hdle hd0
    have hile : n / d ≤ Nat.sqrt n := by
      have h1 : n / d ≤ n / (Nat.sqrt n + 1) := Nat.div_le_div_left (by omega) (by omega)
      have h2 : n / (Nat.sqrt n + 1) < Nat.sqrt n + 1 := by
        rw [Nat.div_lt_iff_lt_mul (by omega)]
        simpa [Nat.succ_eq_add_one] using Nat.lt_succ_sqrt n
      omega
    have hnd : n / (n / d) = d := Nat.div_div_self hdn (by omega)
    refine ⟨n / d, ?_, ?_⟩
    · rw [List.mem_range'_1]; omega
    · rw [if_pos (Nat.mod_eq_zero_of_dvd hidvd)]
      by_cases he : n / d ≠ n / (n / d)
      · rw [if_pos he, hnd]
        exact List.mem_cons_of_mem _ (List.mem_singleton_self _)
      · rw [if_neg he]
        push_neg at he
        rw [List.mem_singleton]
        exact (he.trans hnd).symm

theorem mem_pairList {n i x : Nat}
    (hx : x ∈ (if n % i = 0 then (if i ≠ n / i then [i, n / i] else [i])
      else ([] : List Nat))) :
    n % i = 0 ∧ (x = i ∨ x = n / i) := by
  by_cases h : n % i = 0
  · rw [if_pos h] at hx
    refine ⟨h, ?_⟩
    by_cases he : i ≠ n / i
    · rw [if_pos he] at hx
      rcases List.mem_cons.mp hx with h1 | h1
      · exact Or.inl h1
      · exact Or.inr (List.mem_singleton.mp h1)
    · rw [if_neg he] at hx
      exact Or.inl (List.mem_singleton.mp hx)
  · rw [if_neg h] at hx
    simp at hx

theorem ne_div_of_ne {n a b : Nat} (hn : 1 ≤ n) (ha' : a ≤ Nat.sqrt n)
    (hb' : b ≤ Nat.sqrt n) (hab : a ≠ b) (hbdvd : b ∣ n) : a ≠ n / b := by
  intro heq
  have hmul : b * a = n := by rw [heq]; exact Nat.mul_div_cancel' hbdvd
  obtain ⟨h1, h2⟩ := mul_eq_sqrt_of_le_sqrt (by omega) hmul hb' ha'
  exact hab (h2.trans h1.symm)

theorem divisorsList_nodup {n : Nat} (hn : 1 ≤ n) : (divisorsList n).Nodup := by
  rw [divisorsList, List.nodup_flatMap]
  constructor
  · intro i _
    by_cases h : n % i = 0
    · rw [if_pos h]
      by_cases he : i ≠ n / i
      · rw [if_pos he]
        simp [he]
      · rw [if_neg he]; simp
    · rw [if_neg h]; simp
  · refine ((List.nodup_range' 1 (Nat.sqrt n)).imp_of_mem ?_)
    intro a b hma hmb hab
    rw [List.mem_range'_1] at hma hmb
    intro x hxa hxb
    obtain ⟨hamod, hxa'⟩ := mem_pairList hxa
    obtain ⟨hbmod, hxb'⟩ := mem_pairList hxb
    have hadvd : a ∣ n := Nat.dvd_of_mod_eq_zero hamod
    have hbdvd : b ∣ n := Nat.dvd_of_mod_eq_zero hbmod
    rcases hxa' with rfl | rfl
    · rcases hxb' with h' | h'
      · exact hab h'
      · exact ne_div_of_ne hn (by omega) (by omega) hab hbdvd h'
    · rcases hxb' with h' | h'
      · exact ne_div_of_ne hn (by omega) (by omega) hab.symm hadvd h'.symm
      · have ha2 : n / (n / a) = a := Nat.div_div_self hadvd (by omega)
        have hb2 : n / (n / b) = b := Nat.div_div_self hbdvd (by omega)
        exact hab (by rw [← ha2, h', hb2])

/-! ## Outer-loop invariant -/

theorem factorInv_init {n : Nat} (hn : 1 ≤ n) : FactorInv n 2 n ∅ := by
  refine ⟨by omega, dvd_refl n, ?_, ⟨1, by ring, ?_⟩, ?_, ?_⟩
  · intro p hp _
    exact hp.two_le
  · intro p hp hpd
    exact absurd (Nat.eq_one_of_dvd_one hpd) hp.ne_one
  · intro x hx
    simp at hx
  · intro p hp hlt
    have := (Nat.mem_primeFactors.mp hp).1.two_le
    omega

theorem factorInv_step {n i m : Nat} {s : Finset Nat} (hn : 0 < n) (h2 : 2 ≤ i)
    (hInv : FactorInv n i m s) :
    FactorInv n (i + 1) (innerLoop i m s).1 (innerLoop i m s).2 := by
  obtain ⟨hm0, hmn, hnolow, ⟨c, hc, hcprime⟩, hs1, hs2⟩ := hInv
  rw [innerLoop_eq]
  obtain ⟨k, hk⟩ := divideOut_pow_mul i m
  have hd0 : 0 < divideOut i m := divideOut_pos i hm0
  have hddvd : divideOut i m ∣ m := divideOut_dvd i m
  have hidvd : i ∣ m → i ∣ n := fun h => dvd_trans h hmn
  have hiprime : i ∣ m → i.Prime := by
    intro him
    by_contra hnp
    obtain ⟨q, hq, hqi⟩ := Nat.exists_prime_and_dvd (show i ≠ 1 by omega)
    have hqm : q ∣ m := dvd_trans hqi him
    have : i ≤ q := hnolow q hq hqm
    have : q < i := lt_of_le_of_ne (Nat.le_of_dvd (by omega) hqi)
      (fun he => hnp (he ▸ hq))
    omega
  refine ⟨hd0, dvd_trans hddvd hmn, ?_, ⟨c * i ^ k, ?_, ?_⟩, ?_, ?_⟩
  · intro p hp hpd
    have hile : i ≤ p := hnolow p hp (dvd_trans hpd hddvd)
    rcases Nat.lt_or_ge p (i + 1) with hlt | hge
    · have hpi : p = i := by omega
      subst hpi
      exact absurd hpd (divideOut_not_dvd p h2 m hm0)
    · exact hge
  · rw [hc]
    conv_lhs => rw [hk]
    ring
  · intro p hp hpd
    rcases (Nat.Prime.dvd_mul hp).mp hpd with h' | h'
    · have := hcprime p hp h'
      omega
    · have hpi : p ∣ i := hp.dvd_of_dvd_pow h'
      have : p ≤ i := Nat.le_of_dvd (by omega) hpi
      omega
  · intro x hx
    by_cases hcond : 2 ≤ i ∧ 0 < m ∧ m % i = 0
    · rw [if_pos hcond] at hx
      rcases Finset.mem_insert.mp hx with rfl | hx'
      · have him : x ∣ m := Nat.dvd_of_mod_eq_zero hcond.2.2
        refine ⟨Nat.mem_primeFactors.mpr ⟨hiprime him, hidvd him, by omega⟩, by omega⟩
      · obtain ⟨h1, h2'⟩ := hs1 x hx'
        exact ⟨h1, by omega⟩
    · rw [if_neg hcond] at hx
      obtain ⟨h1, h2'⟩ := hs1 x hx
      exact ⟨h1, by omega⟩
  · intro p hp hlt
    rcases Nat.lt_or_ge p i with hlt' | hge
    · have hmem : p ∈ s := hs2 p hp hlt'
      by_cases hcond : 2 ≤ i ∧ 0 < m ∧ m % i = 0
      · rw [if_pos hcond]; exact Finset.mem_insert_of_mem hmem
      · rw [if_neg hcond]; exact hmem
    · have hpi : p = i := by omega
      subst hpi
      obtain ⟨hpp, hpdvd, -⟩ := Nat.mem_primeFactors.mp hp
      have hpm : p ∣ m := by
        rcases (Nat.Prime.dvd_mul hpp).mp (hc ▸ hpdvd) with h' | h'
        · exact h'
        · have := hcprime p hpp h'
          omega
      have hcond : 2 ≤ p ∧ 0 < m ∧ m % p = 0 :=
        ⟨h2, hm0, Nat.mod_eq_zero_of_dvd hpm⟩
      rw [if_pos hcond]
      exact Finset.mem_insert_self p _

theorem factorInv_foldl (n : Nat) (hn : 0 < n) :
    ∀ (len i m : Nat) (s : Finset Nat), 2 ≤ i → FactorInv n i m s →
      FactorInv n (i + len)
        (((List.range' i len).foldl (fun q j => innerLoop j q.1 q.2) (m, s)).1)
        (((List.range' i len).foldl (fun q j => innerLoop j q.1 q.2) (m, s)).2) := by
  intro len
  induction len with
  | zero =>
    intro i m s h2 hInv
    simpa using hInv
  | succ len ih =>
    intro i m s h2 hInv
    rw [List.range'_succ]
    simp only [List.foldl_cons]
    have hstep := factorInv_step hn h2 hInv
    have hrec := ih (i + 1) (innerLoop i m s).1 (innerLoop i m s).2 (by omega) hstep
    rw [show i + (len + 1) = (i + 1) + len from by omega]
    exact hrec

theorem factorInv_final {n i m : Nat} {s : Finset Nat} (hn : 0 < n)
    (hInv : FactorInv n i m s) (hi : Nat.sqrt m < i) :
    (if m > 1 then insert m s else s) = n.primeFactors := by
  obtain ⟨hm0, hmn, hnolow, ⟨c, hc, hcprime⟩, hs1, hs2⟩ := hInv
  by_cases hm1 : m > 1
  · rw [if_pos hm1]
    have hmprime : m.Prime := by
      by_contra hnp
      obtain ⟨p, hp, hpm⟩ := Nat.exists_prime_and_dvd (show m ≠ 1 by omega)
      have hpgt : Nat.sqrt m < p := lt_of_lt_of_le hi (hnolow p hp hpm)
      have hpne : p ≠ m := fun he => hnp (he ▸ hp)
      have hrne1 : m / p ≠ 1 := by
        intro he
        have hcancel : m / p * p = m := Nat.div_mul_cancel hpm
        rw [he, one_mul] at hcancel
        exact hpne hcancel
      obtain ⟨q, hq, hqr⟩ := Nat.exists_prime_and_dvd hrne1
      have hqm : q ∣ m := dvd_trans hqr (Nat.div_dvd_of_dvd hpm)
      have hqgt : Nat.sqrt m < q := lt_of_lt_of_le hi (hnolow q hq hqm)
      obtain ⟨t, ht⟩ := hqr
      have hm_eq : m = p * (q * t) := by
        rw [← ht]
        exact (Nat.mul_div_cancel' hpm).symm
      have ht0 : 0 < t := by
        rcases Nat.eq_zero_or_pos t with h0 | h0
        · rw [h0, Nat.mul_zero] at ht
          have hrpos : 0 < m / p := Nat.div_pos (Nat.le_of_dvd hm0 hpm) hp.pos
          omega
        · exact h0
      have h1 : (Nat.sqrt m + 1) * (Nat.sqrt m + 1) ≤ p * q :=
        Nat.mul_le_mul (by omega) (by omega)
      have h2 : p * q ≤ p * (q * t) := by
        have : q * 1 ≤ q * t := Nat.mul_le_mul (le_refl q) ht0
        exact Nat.mul_le_mul (le_refl p) (by omega)
      have h3 : m < (Nat.sqrt m + 1) * (Nat.sqrt m + 1) := by
        simpa [Nat.succ_eq_add_one] using Nat.lt_succ_sqrt m
      rw [← hm_eq] at h2
      linarith
    ext p
    rw [Finset.mem_insert]
    constructor
    · rintro (rfl | hp)
      · exact Nat.mem_primeFactors.mpr ⟨hmprime, hmn, by omega⟩
      · exact (hs1 p hp).1
    · intro hp
      obtain ⟨hpp, hpdvd, -⟩ := Nat.mem_primeFactors.mp hp
      rcases (Nat.Prime.dvd_mul hpp).mp (hc ▸ hpdvd) with h' | h'
      · exact Or.inl ((Nat.prime_dvd_prime_iff_eq hpp hmprime).mp h')
      · exact Or.inr (hs2 p hp (hcprime p hpp h'))
  · rw [if_neg hm1]
    have hm : m = 1 := by omega
    subst hm
    ext p
    constructor
    · intro hp
      exact (hs1 p hp).1
    · intro hp
      obtain ⟨hpp, hpdvd, -⟩ := Nat.mem_primeFactors.mp hp
      exact hs2 p hp (hcprime p hpp (by rwa [hc, one_mul] at hpdvd))

theorem find_prime_factors_eq (n : Nat) (hn : 1 ≤ n) :
    find_prime_factors n = n.primeFactors := by
  have hK : 1 ≤ Nat.sqrt n := Nat.sqrt_pos.mpr hn
  have hfold := factorInv_foldl n (by omega) (Nat.sqrt n - 1) 2 n ∅
    (by omega) (factorInv_init hn)
  rw [show 2 + (Nat.sqrt n - 1) = Nat.sqrt n + 1 from by omega] at hfold
  have hd := hfold.2.1
  have hle : Nat.sqrt (((List.range' 2 (Nat.sqrt n - 1)).foldl
      (fun q j => innerLoop j q.1 q.2) (n, ∅)).1) < Nat.sqrt n + 1 := by
    have h1 := Nat.le_of_dvd (by omega) hd
    have h2 := Nat.sqrt_le_sqrt h1
    omega
  simp only [find_prime_factors]
  exact factorInv_final (by omega) hfold hle

theorem recomputeLoop_inv (n : Nat) (hn : 0 < n) :
    ∀ (fuel i m : Nat) (s : Finset Nat), 2 ≤ i → FactorInv n i m s →
      Nat.sqrt m + 1 ≤ i + fuel →
      ∃ j, 2 ≤ j ∧
        FactorInv n j (recomputeLoop fuel i m s).1 (recomputeLoop fuel i m s).2 ∧
        Nat.sqrt (recomputeLoop fuel i m s).1 < j := by
  intro fuel
  induction fuel with
  | zero =>
    intro i m s h2 hInv hle
    exact ⟨i, h2, by simpa [recomputeLoop] using hInv,
      by simpa [recomputeLoop] using (by omega : Nat.sqrt m < i)⟩
  | succ fuel ih =>
    intro i m s h2 hInv hle
    simp only [recomputeLoop]
    by_cases hc : i ≤ Nat.sqrt m
    · rw [if_pos hc]
      have hstep := factorInv_step hn h2 hInv
      have hm' : (innerLoop i m s).1 ∣ m := by
        rw [innerLoop_eq]
        exact divideOut_dvd i m
      have hmle : (innerLoop i m s).1 ≤ m := Nat.le_of_dvd hInv.1 hm'
      have hsq : Nat.sqrt (innerLoop i m s).1 ≤ Nat.sqrt m := Nat.sqrt_le_sqrt hmle
      exact ih (i + 1) (innerLoop i m s).1 (innerLoop i m s).2 (by omega) hstep (by omega)
    · rw [if_neg hc]
      exact ⟨i, h2, hInv, show Nat.sqrt m < i by omega⟩

theorem find_prime_factors_recompute_eq (n : Nat) (hn : 1 ≤ n) :
    find_prime_factors_recompute n = n.primeFactors := by
  obtain ⟨j, hj2, hInv, hlt⟩ := recomputeLoop_inv n (by omega) (Nat.sqrt n) 2 n ∅
    (by omega) (factorInv_init hn) (by omega)
  simp only [find_prime_factors_recompute]
  exact factorInv_final (by omega) hInv hlt

theorem find_prime_factors_fuel_eq (n : Nat) :
    find_prime_factors_fuel n = find_prime_factors n := by
  have hfun : (fun (q : Nat × Finset Nat) i => innerLoopFuel q.1 i q.1 q.2)
      = (fun (q : Nat × Finset Nat) i => innerLoop i q.1 q.2) := by
    funext q i
    exact innerLoopFuel_eq i q.1 q.1 q.2 (le_refl q.1)
  simp only [find_prime_factors_fuel, find_prime_factors, hfun]

/-! ## find_divisors observations -/

theorem mem_find_divisors {n d : Nat} (hn : 1 ≤ n) :
    d ∈ find_divisors n ↔ (0 < d ∧ n % d = 0) := by
  rw [find_divisors, List.mem_insertionSort]
  constructor
  · exact divisorsList_sound hn
  · intro h
    exact divisorsList_complete hn h.1 h.2

theorem find_divisors_nodup {n : Nat} (hn : 1 ≤ n) : (find_divisors n).Nodup :=
  ((List.perm_insertionSort (· ≤ ·) (divisorsList n)).nodup_iff).mpr
    (divisorsList_nodup hn)

theorem find_divisors_sorted_lt {n : Nat} (hn : 1 ≤ n) :
    List.Sorted (· < ·) (find_divisors n) :=
  (List.sorted_insertionSort (· ≤ ·) (divisorsList n)).lt_of_le
    (find_divisors_nodup hn)

theorem find_divisors_length_le (n : Nat) :
    (find_divisors n).length ≤ 2 * Nat.sqrt n := by
  have hperm := List.perm_insertionSort (· ≤ ·) (divisorsList n)
  rw [find_divisors, hperm.length_eq, divisorsList, List.flatMap, List.length_flatten,
    List.map_map]
  have hb : ∀ x ∈ (List.range' 1 (Nat.sqrt n)).map
      (List.length ∘ fun i =>
        if n % i = 0 then (if i ≠ n / i then [i, n / i] else [i]) else []),
      x ≤ 2 := by
    intro x hx
    rw [List.mem_map] at hx
    obtain ⟨i, -, rfl⟩ := hx
    simp only [Function.comp_apply]
    by_cases h1 : n % i = 0
    · rw [if_pos h1]
      by_cases h2 : i ≠ n / i
      · rw [if_pos h2]; simp
      · rw [if_neg h2]; simp
    · rw [if_neg h1]; simp
  have hs := List.sum_le_card_nsmul _ 2 hb
  rw [List.length_map, List.length_range'] at hs
  simpa [smul_eq_mul, Nat.mul_comm] using hs

/-! ## Claim theorems -/

/-- C1: for every n ≥ 1, `find_divisors n` contains exactly the positive
divisors of n (d is a member iff d > 0 and n mod d = 0, so nothing is
missing and everything divides), is sorted strictly ascending, and has no
duplicates — each member, in particular a perfect square's root, appears
exactly once. -/
theorem C1_find_divisors_exact (n : Nat) (hn : 1 ≤ n) :
    (∀ d, d ∈ find_divisors n ↔ (0 < d ∧ n % d = 0)) ∧
    List.Sorted (· < ·) (find_divisors n) ∧
    (find_divisors n).Nodup ∧
    (∀ d ∈ find_divisors n, (find_divisors n).count d = 1) := by
  refine ⟨fun d => mem_find_divisors hn, find_divisors_sorted_lt hn,
    find_divisors_nodup hn, fun d hd => ?_⟩
  exact List.count_eq_one_of_mem (find_divisors_nodup hn) hd

/-- Witness for C1 at n = 12. -/
theorem C1_find_divisors_exact_witness :
    1 ≤ 12 ∧
    ((∀ d, d ∈ find_divisors 12 ↔ (0 < d ∧ 12 % d = 0)) ∧
    List.Sorted (· < ·) (find_divisors 12) ∧
    (find_divisors 12).Nodup ∧
    (∀ d ∈ find_divisors 12, (find_divisors 12).count d = 1)) :=
  ⟨by decide, C1_find_divisors_exact 12 (by decide)⟩

/-- C2: for every n ≥ 1, `find_prime_factors n` is exactly the set of
distinct primes dividing n (`Nat.primeFactors`); hence every element is
prime, and the product of the elements each raised to its true multiplicity
in n reconstructs n.  For n = 1 the set is empty since `Nat.primeFactors 1`
is empty. -/
theorem C2_find_prime_factors_primes_product (n : Nat) (hn : 1 ≤ n) :
    find_prime_factors n = n.primeFactors ∧
    (∀ p ∈ find_prime_factors n, p.Prime) ∧
    (∏ p ∈ find_prime_factors n, p ^ n.factorization p) = n := by
  have he := find_prime_factors_eq n hn
  refine ⟨he, ?_, ?_⟩
  · intro p hp
    exact Nat.prime_of_mem_primeFactors (he ▸ hp)
  · rw [he]
    conv_rhs => rw [← Nat.factorization_prod_pow_eq_self (show n ≠ 0 by omega)]
    rw [Finsupp.prod, Nat.support_factorization]

/-- Witness for C2 at n = 12. -/
theorem C2_find_prime_factors_primes_product_witness :
    1 ≤ 12 ∧
    (find_prime_factors 12 = Nat.primeFactors 12 ∧
    (∀ p ∈ find_prime_factors 12, p.Prime) ∧
    (∏ p ∈ find_prime_factors 12, p ^ (Nat.factorization 12) p) = 12) :=
  ⟨by decide, C2_find_prime_factors_primes_product 12 (by decide)⟩

/-- C3 counterexample: at the negative input n = -1, both functions raise
`ValueError: math domain error` (from `math.sqrt`) instead of silently
falling through with a degenerate result, contradicting the claim that
negative inputs do not signal an error. -/
theorem C3_counterexample :
    find_divisors_py (-1) = Except.error "math domain error" ∧
    find_prime_factors_py (-1) = Except.error "math domain error" := by
  constructor <;> rfl

/-- C3 as amended: for n = 0 both functions silently return an empty result
(the degenerate loop bounds make both loops no-ops), but for every negative
n both functions raise `ValueError: math domain error` from `math.sqrt`
rather than silently returning a degenerate result. -/
theorem C3_amended_zero_neg (n : Int) (hn : n < 0) :
    find_divisors_py 0 = Except.ok [] ∧
    find_prime_factors_py 0 = Except.ok ∅ ∧
    find_divisors_py n = Except.error "math domain error" ∧
    find_prime_factors_py n = Except.error "math domain error" := by
  refine ⟨rfl, rfl, ?_, ?_⟩
  · rw [find_divisors_py, if_pos hn]
  · rw [find_prime_factors_py, if_pos hn]

/-- Witness for the amended C3 at n = -5. -/
theorem C3_amended_zero_neg_witness :
    (-5 : Int) < 0 ∧
    (find_divisors_py 0 = Except.ok [] ∧
    find_prime_factors_py 0 = Except.ok ∅ ∧
    find_divisors_py (-5) = Except.error "math domain error" ∧
    find_prime_factors_py (-5) = Except.error "math domain error") :=
  ⟨by decide, C3_amended_zero_neg (-5) (by decide)⟩

/-- C4: the recomputed-bound variant of the outer loop returns exactly the
same result set as the reference `find_prime_factors` for every n ≥ 1. -/
theorem C4_recompute_same_result (n : Nat) (hn : 1 ≤ n) :
    find_prime_factors_recompute n = find_prime_factors n := by
  rw [find_prime_factors_recompute_eq n hn, find_prime_factors_eq n hn]

/-- Witness for C4 at n = 12. -/
theorem C4_recompute_same_result_witness :
    1 ≤ 12 ∧ find_prime_factors_recompute 12 = find_prime_factors 12 :=
  ⟨by decide, C4_recompute_same_result 12 (by decide)⟩

/-- C5: boundary behavior at n = 1: `find_divisors 1 = [1]` and
`find_prime_factors 1 = ∅` (the outer loop range is empty and the
post-loop working value 1 fails the `> 1` check). -/
theorem C5_boundary_one :
    find_divisors 1 = [1] ∧ find_prime_factors 1 = ∅ := by
  constructor
  · decide
  · rfl

/-- C6: for the perfect-square input 16, `find_divisors 16` is exactly
[1, 2, 4, 8, 16], with the square root 4 appearing exactly once. -/
theorem C6_perfect_square_sixteen :
    find_divisors 16 = [1, 2, 4, 8, 16] ∧ (find_divisors 16).count 4 = 1 := by
  have h : Nat.sqrt 16 = 4 := sqrt_eval (by decide) (by decide)
  have h16 : find_divisors 16 = [1, 2, 4, 8, 16] := by
    rw [find_divisors, divisorsList, h]
    decide
  exact ⟨h16, by rw [h16]; decide⟩

/-- C7: totality.  The inner while loop's working value strictly decreases
at each iteration (division by i ≥ 2 of a positive multiple), so the loop
of `find_prime_factors` always exits: it is computed exactly by the
fuel-bounded `innerLoopFuel` with fuel equal to the entry working value,
and the whole function coincides with the manifestly total
`find_prime_factors_fuel`; `find_divisors` is a fold over the finite
explicit list `range' 1 ⌊√n⌋` and is total by construction. -/
theorem C7_totality (n : Nat) (hn : 1 ≤ n) :
    (∀ i m : Nat, 2 ≤ i → 0 < m → m % i = 0 → m / i < m) ∧
    (∀ (i m : Nat) (s : Finset Nat), innerLoop i m s = innerLoopFuel m i m s) ∧
    find_prime_factors_fuel n = find_prime_factors n := by
  refine ⟨?_, ?_, find_prime_factors_fuel_eq n⟩
  · intro i m h2 hm _
    exact Nat.div_lt_self hm (by omega)
  · intro i m s
    exact (innerLoopFuel_eq i m m s (le_refl m)).symm

/-- Witness for C7 at n = 12. -/
theorem C7_totality_witness :
    1 ≤ 12 ∧
    ((∀ i m : Nat, 2 ≤ i → 0 < m → m % i = 0 → m / i < m) ∧
    (∀ (i m : Nat) (s : Finset Nat), innerLoop i m s = innerLoopFuel m i m s) ∧
    find_prime_factors_fuel 12 = find_prime_factors 12) :=
  ⟨by decide, C7_totality 12 (by decide)⟩

/-- C8: both functions are pure and deterministic: the result depends on
the argument alone (two calls with equal arguments yield identical
results), and no state persists between invocations — in the embedding
both are mathematical functions of n. -/
theorem C8_pure_deterministic (n n' : Nat) (hn : 1 ≤ n) (he : n = n') :
    find_divisors n = find_divisors n' ∧
    find_prime_factors n = find_prime_factors n' := by
  subst he
  exact ⟨rfl, rfl⟩

/-- Witness for C8 at n = 12. -/
theorem C8_pure_deterministic_witness :
    1 ≤ 12 ∧
    (find_divisors 12 = find_divisors 12 ∧
    find_prime_factors 12 = find_prime_factors 12) :=
  ⟨by decide, C8_pure_deterministic 12 12 (by decide) rfl⟩

/-- C9: for every n ≥ 1, every element of `find_prime_factors n` is also an
element of `find_divisors n`. -/
theorem C9_prime_factors_subset_divisors (n : Nat) (hn : 1 ≤ n) :
    ∀ p ∈ find_prime_factors n, p ∈ find_divisors n := by
  intro p hp
  rw [find_prime_factors_eq n hn] at hp
  obtain ⟨hpp, hpd, -⟩ := Nat.mem_primeFactors.mp hp
  exact (mem_find_divisors hn).mpr ⟨hpp.pos, Nat.mod_eq_zero_of_dvd hpd⟩

/-- Witness for C9 at n = 12. -/
theorem C9_prime_factors_subset_divisors_witness :
    1 ≤ 12 ∧ ∀ p ∈ find_prime_factors 12, p ∈ find_divisors 12 :=
  ⟨by decide, C9_prime_factors_subset_divisors 12 (by decide)⟩

/-- C10: for every n ≥ 1, the length of `find_divisors n` is at most
2⌊√n⌋: each of the ⌊√n⌋ loop iterations appends at most two elements and
sorting preserves length. -/
theorem C10_length_bound (n : Nat) (hn : 1 ≤ n) :
    (find_divisors n).length ≤ 2 * Nat.sqrt n :=
  find_divisors_length_le n

/-- Witness for C10 at n = 12. -/
theorem C10_length_bound_witness :
    1 ≤ 12 ∧ (find_divisors 12).length ≤ 2 * Nat.sqrt 12 :=
  ⟨by decide, C10_length_bound 12 (by decide)⟩
